import Mathlib

/-!
Verification development for the build-pipeline script `task2.py`.

The script is modelled by a shallow embedding: the filesystem is a finite
tree of named entries, paths are lists of components (the image of
`os.path.normpath` on the relative paths the script manipulates, so a
component contains no separator and is not empty), and each pipeline stage
becomes a pure function from trees to trees.  Fallible stages return
`Option` or `Bool` results mirroring the `try/except` blocks of the
script; filesystem primitives that cannot fail in the model (reads and
writes on existing directories) are total.
-/

namespace Task2

/-- Content of a regular file.  The `manifest` constructor models the JSON
object that `json.dump` writes to `version.json`; serialization is kept
abstract and the three fields are exactly the keys of the dumped
dictionary: `name`, `version`, `files`. -/
inductive FileData where
  | raw (content : String)
  | manifest (name : String) (version : String) (files : List String)

/-- A finite filesystem tree: a regular file with contents, or a directory
with a list of named children in directory-listing order. -/
inductive FSTree where
  | file (data : FileData)
  | dir (entries : List (String × FSTree))

/-- Children of a directory, `[]` for a regular file. -/
def FSTree.entriesOf : FSTree → List (String × FSTree)
  | .file _ => []
  | .dir entries => entries

/-- Models `os.path.isdir` at an existing node. -/
def FSTree.isDir : FSTree → Bool
  | .file _ => false
  | .dir _ => true

/-- Models `os.path.isfile` at an existing node. -/
def FSTree.isFile : FSTree → Bool
  | .file _ => true
  | .dir _ => false

/-- Look up a direct child by name (first entry with that name). -/
def FSTree.find (t : FSTree) (name : String) : Option FSTree :=
  match t with
  | .file _ => none
  | .dir entries => (entries.find? (fun e => e.1 == name)).map (fun e => e.2)

/-- Walk a relative path below a tree; `none` when a component is missing
or the walk passes through a regular file.  `(t.lookup p).isSome` models
`os.path.exists` of the path `p` below `t`. -/
def FSTree.lookup (t : FSTree) : List String → Option FSTree
  | [] => some t
  | n :: rest =>
    match t.find n with
    | some c => c.lookup rest
    | none => none

/-- Remove the direct child with the given name; models `shutil.rmtree` on
a direct child of a directory. -/
def FSTree.removeChild (t : FSTree) (name : String) : FSTree :=
  match t with
  | .file d => .file d
  | .dir entries => .dir (entries.filter (fun e => !(e.1 == name)))

/-- Create or overwrite the direct child `name` of a directory.  Models
opening `name` for writing: an existing entry is replaced in place, a new
entry is appended to the listing. -/
def setEntry (t : FSTree) (name : String) (c : FSTree) : FSTree :=
  match t with
  | .file d => .file d
  | .dir entries =>
    if entries.any (fun e => e.1 == name) then
      .dir (entries.map (fun e => if e.1 == name then (name, c) else e))
    else
      .dir (entries ++ [(name, c)])

/-- Replace the subtree at a path (no effect on components that do not
exist, which the pipeline never exercises). -/
def FSTree.setAt : FSTree → List String → FSTree → FSTree
  | _, [], c => c
  | .file d, _ :: _, _ => .file d
  | .dir entries, n :: rest, c =>
    .dir (entries.map (fun e => if e.1 == n then (n, FSTree.setAt e.2 rest c) else e))

/-- Real directory listings have pairwise distinct entry names. -/
abbrev nodupKeys (entries : List (String × FSTree)) : Prop :=
  (entries.map Prod.fst).Nodup

/-- Skip condition of the pruning loop, `task2.py` line 48:
`item == '.git' or item_path == full_keep_path or item_path == os.path.dirname(full_keep_path)`.
With component-list paths and separator-free components,
`item_path == full_keep_path` holds iff the normalized keep path is
exactly `[item]`, and `item_path == os.path.dirname(full_keep_path)`
holds iff `keep_path.dropLast = [item]`. -/
def cleanSkip (keep_path : List String) (item : String) : Bool :=
  item == ".git" || keep_path == [item] || keep_path.dropLast == [item]

/-- One iteration of the pruning loop of `clean_directory`: skip protected
names, otherwise delete the child when the current filesystem state has a
directory of that name (`if os.path.isdir(item_path): shutil.rmtree(item_path)`). -/
def cleanStep (keep_path : List String) (acc : FSTree) (item : String) : FSTree :=
  if cleanSkip keep_path item then acc
  else
    match acc.find item with
    | some c => if c.isDir then acc.removeChild item else acc
    | none => acc

/-- An entry of the root listing survives pruning iff it is skipped by
`cleanSkip` or is not a directory. -/
def keepEntry (keep_path : List String) (e : String × FSTree) : Bool :=
  cleanSkip keep_path e.1 || !e.2.isDir

/-- Model of `clean_directory(root_dir, keep_path)` acting on the tree at
`root_dir`.  The existence check of line 39 is the `lookup`; on failure
the function returns `False` with the tree unchanged.  The loop of
line 44 iterates over a snapshot of the root listing (`os.listdir`) while
deleting children, which the `foldl` over the listed names reproduces;
`os.listdir` on a regular file raises, caught by the `except` branch,
hence `(false, root)` for a file root. -/
def clean_directory (root : FSTree) (keep_path : List String) : Bool × FSTree :=
  if (root.lookup keep_path).isNone then (false, root)
  else
    match root with
    | .file d => (false, .file d)
    | .dir entries =>
      (true, (entries.map Prod.fst).foldl (cleanStep keep_path) (.dir entries))

/-- Model of Python's `str.endswith`: the suffix's characters are a
suffix of the string's characters. -/
def endswith (s suffix : String) : Bool :=
  suffix.data.isSuffixOf s.data

/-- The tuple of allowed suffixes, `task2.py` line 67. -/
def allowed_extensions : List String := [".py", ".js", ".sh"]

/-- Model of `create_version_file(source_dir, version)` acting on the tree
at `source_dir`.  The filtered listing mirrors lines 68 to 71:
`os.listdir`, `os.path.isfile` on each name, and
`f.endswith(allowed_extensions)`.  `none` models the `except` branch:
listing a regular file (`NotADirectoryError`), or opening `version.json`
for writing while a directory of that name is in the way
(`IsADirectoryError`). -/
def create_version_file (source : FSTree) (version : String) : Option FSTree :=
  match source with
  | .file _ => none
  | .dir entries =>
    let files := (entries.map Prod.fst).filter (fun f =>
      (match (FSTree.dir entries).find f with
       | some t => t.isFile
       | none => false) &&
      allowed_extensions.any (fun ext => endswith f ext))
    if ((FSTree.dir entries).find "version.json").elim false FSTree.isDir then none
    else
      some (setEntry (.dir entries) "version.json"
        (.file (.manifest "hello world" version files)))

/-- Stamp stage as invoked by `main`: `create_version_file` receives the
path `os.path.join(temp_dir, args.source_path)`, modelled by looking up
the source path below the cloned tree and writing back the updated
subtree.  `none` when the source path does not exist (`FileNotFoundError`
inside `create_version_file`). -/
def create_version_file_at (fs : FSTree) (source_path : List String) (version : String) :
    Option FSTree :=
  match fs.lookup source_path with
  | some src =>
    match create_version_file src version with
    | some newSrc => some (fs.setAt source_path newSrc)
    | none => none
  | none => none

/-- A calendar date, standing for `datetime.datetime.now()` of the run. -/
structure Date where
  year : Nat
  month : Nat
  day : Nat

/-- Two-digit zero padding, the model of the `%m` and `%d` directives. -/
def pad2 (n : Nat) : String :=
  if n < 10 then "0" ++ toString n else toString n

/-- Model of `strftime("%Y%m%d")`: decimal year, zero-padded month and
day. -/
def formatYYYYMMDD (d : Date) : String :=
  toString d.year ++ pad2 d.month ++ pad2 d.day

/-- The fixed working directory of `main`, `temp_dir = 'temp_repo'`. -/
def temp_dir : List String := ["temp_repo"]

/-- The produced zip archive as a value: its filename and the directory
tree that was zipped (`shutil.make_archive` with `root_dir = source_dir`
packs the contents of `source_dir`). -/
structure Archive where
  name : String
  contents : FSTree

/-- Model of `create_archive(source_dir)` for `source_dir` equal to
`os.path.join('temp_repo', source_path)`.  The base name is
`os.path.basename(os.path.normpath(source_dir))`, the final component of
the normalized path; `shutil.make_archive` appends `.zip`.  `none` models
the `except` branch (the source path missing or not a directory), in
which the script returns the empty string. -/
def create_archive (fs : FSTree) (source_path : List String) (today : Date) :
    Option Archive :=
  match fs.lookup source_path with
  | some (.dir entries) =>
    some { name := (temp_dir ++ source_path).getLastD "" ++ formatYYYYMMDD today ++ ".zip",
           contents := .dir entries }
  | _ => none

/-- The four pipeline stages, for tagging log messages. -/
inductive Stage where
  | fetch
  | prune
  | stamp
  | package

/-- The run-terminating log message of the driver: the error logged at a
failing stage, or the final confirmation line of `main` naming the
produced archive.  Intermediate info-level progress lines are not
modelled. -/
inductive LogEvent where
  | errorAt (s : Stage)
  | done (archiveName : String)

/-- Observable outcome of one run of `main` after the clone step:
the exit status the program itself sets (it never calls `sys.exit`, so
always `0`), whether `main` executed `shutil.rmtree(temp_dir)` before
returning, whether a `version.json` was written, the archive moved into
the invocation directory, and the run-terminating log message. -/
structure RunState where
  exitCode : Nat
  tempRemoved : Bool
  versionWritten : Bool
  archive : Option Archive
  log : List LogEvent

/-- Model of `main` from the clone step on: `cloneResult` is `some` of the
cloned tree when `git clone` succeeds and `none` when it fails.  Each
failing stage logs an error and returns early; a failure after the clone
removes the working directory first (lines 137, 143, 149); on success the
archive is moved to the invocation directory, the working directory is
removed, and the confirmation line naming the archive is logged. -/
def main_model (cloneResult : Option FSTree) (source_path : List String)
    (version : String) (today : Date) : RunState :=
  match cloneResult with
  | none =>
    { exitCode := 0, tempRemoved := false, versionWritten := false,
      archive := none, log := [.errorAt .fetch] }
  | some repo =>
    match clean_directory repo source_path with
    | (false, _) =>
      { exitCode := 0, tempRemoved := true, versionWritten := false,
        archive := none, log := [.errorAt .prune] }
    | (true, pruned) =>
      match create_version_file_at pruned source_path version with
      | none =>
        { exitCode := 0, tempRemoved := true, versionWritten := false,
          archive := none, log := [.errorAt .stamp] }
      | some stamped =>
        match create_archive stamped source_path today with
        | none =>
          { exitCode := 0, tempRemoved := true, versionWritten := true,
            archive := none, log := [.errorAt .package] }
        | some ar =>
          { exitCode := 0, tempRemoved := true, versionWritten := true,
            archive := some ar, log := [.done ar.name] }

/-- Example repository tree used to evaluate the pipeline on concrete
input: version-control metadata, a source directory `app`, and a sibling
directory `docs`. -/
def repoEx : FSTree :=
  .dir [(".git", .dir []),
        ("app", .dir [("hello.py", .file (.raw "print"))]),
        ("docs", .dir [("a.md", .file (.raw "doc"))])]

/-- The example run date. -/
def dEx : Date := ⟨2024, 3, 7⟩

/-- The example tree after pruning with keep path `app`. -/
def prunedEx : FSTree :=
  .dir [(".git", .dir []),
        ("app", .dir [("hello.py", .file (.raw "print"))])]

/-- The example source directory after stamping. -/
def appStampedEx : FSTree :=
  .dir [("hello.py", .file (.raw "print")),
        ("version.json", .file (.manifest "hello world" "1.0.0" ["hello.py"]))]

/-- The example tree after stamping. -/
def stampedEx : FSTree :=
  .dir [(".git", .dir []), ("app", appStampedEx)]

/-- The archive the example run produces. -/
def arEx : Archive := { name := "app20240307.zip", contents := appStampedEx }

/-- A repository whose keep path `a/b/c` is three components deep. -/
def deepRoot : FSTree :=
  .dir [("a", .dir [("b", .dir [("c", .dir [])])])]

/-- A source directory listing with files of several suffixes and a nested
subdirectory that itself holds a `.py` file. -/
def srcEntriesEx : List (String × FSTree) :=
  [("a.py", .file (.raw "a")),
   ("b.txt", .file (.raw "b")),
   ("sub", .dir [("c.py", .file (.raw "c"))]),
   ("run.sh", .file (.raw "r")),
   (".py", .file (.raw "hidden"))]

/-- The stamped tree of the `srcEntriesEx` example. -/
def stEx3 : FSTree :=
  setEntry (FSTree.dir srcEntriesEx) "version.json"
    (.file (.manifest "hello world" "2.0" ["a.py", "run.sh", ".py"]))

/-- A first entry of `List.find?` over entries has the searched key and is
a member of the list. -/
theorem find?_key_eq {entries : List (String × FSTree)} {n : String}
    {e : String × FSTree}
    (h : entries.find? (fun e => e.1 == n) = some e) : e.1 = n ∧ e ∈ entries := by
  have hp := List.find?_some h
  exact ⟨beq_iff_eq.mp hp, List.mem_of_find?_eq_some h⟩

/-- In a listing with distinct names, two entries with the same name are
the same entry. -/
theorem eq_of_mem_nodup_keys {entries : List (String × FSTree)}
    (hnd : nodupKeys entries) {e₁ e₂ : String × FSTree}
    (h₁ : e₁ ∈ entries) (h₂ : e₂ ∈ entries) (hk : e₁.1 = e₂.1) : e₁ = e₂ :=
  List.inj_on_of_nodup_map hnd h₁ h₂ hk

/-- Tail of a listing with distinct names again has distinct names. -/
theorem nodupKeys_tail {e : String × FSTree} {rest : List (String × FSTree)}
    (hnd : nodupKeys (e :: rest)) : nodupKeys rest := by
  unfold nodupKeys at hnd ⊢
  simp only [List.map_cons, List.nodup_cons] at hnd
  exact hnd.2

/-- Head name of a listing with distinct names does not occur in the tail. -/
theorem head_not_mem_tail_keys {e : String × FSTree} {rest : List (String × FSTree)}
    (hnd : nodupKeys (e :: rest)) : e.1 ∉ rest.map Prod.fst := by
  unfold nodupKeys at hnd
  simp only [List.map_cons, List.nodup_cons] at hnd
  exact hnd.1

/-- A sublist of a listing with distinct names has distinct names. -/
theorem nodupKeys_filter {entries : List (String × FSTree)}
    (P : String × FSTree → Bool) (hnd : nodupKeys entries) :
    nodupKeys (entries.filter P) :=
  List.Nodup.sublist (List.Sublist.map Prod.fst (List.filter_sublist entries)) hnd

/-- Direct-child lookup in a listing with distinct names is exactly
membership of the name-subtree pair. -/
theorem find_dir_eq_some_iff {entries : List (String × FSTree)}
    (hnd : nodupKeys entries) {n : String} {t : FSTree} :
    (FSTree.dir entries).find n = some t ↔ (n, t) ∈ entries := by
  constructor
  · intro h
    simp only [FSTree.find] at h
    cases hf : entries.find? (fun e => e.1 == n) with
    | none => rw [hf] at h; simp at h
    | some e =>
      rw [hf] at h
      simp only [Option.map_some', Option.some.injEq] at h
      obtain ⟨hk, hm⟩ := find?_key_eq hf
      have he : e = (n, t) := by
        cases e with
        | mk a b => simp only at hk h; rw [hk, h]
      rw [he] at hm
      exact hm
  · intro h
    have hsome : (entries.find? (fun e => e.1 == n)).isSome :=
      List.find?_isSome.mpr ⟨(n, t), h, by simp⟩
    obtain ⟨e, hf⟩ := Option.isSome_iff_exists.mp hsome
    obtain ⟨hk, hm⟩ := find?_key_eq hf
    have he : e = (n, t) := eq_of_mem_nodup_keys hnd hm h (by simp [hk])
    simp only [FSTree.find]
    rw [hf, he]
    rfl

/-- No entry of the listing has the name, so lookup fails. -/
theorem find?_none_of_not_mem_keys {entries : List (String × FSTree)} {n : String}
    (h : n ∉ entries.map Prod.fst) :
    entries.find? (fun e => e.1 == n) = none := by
  rw [List.find?_eq_none]
  intro x hx hbeq
  have hxn : x.1 = n := beq_iff_eq.mp (show (x.1 == n) = true from hbeq)
  exact h (List.mem_map.mpr ⟨x, hx, hxn⟩)

/-- Looking up a name in a filtered listing with distinct names finds the
original entry exactly when the filter keeps it. -/
theorem find?_filter_keys {P : String × FSTree → Bool} {n : String}
    {entries : List (String × FSTree)} (hnd : nodupKeys entries) :
    (entries.filter P).find? (fun e => e.1 == n) =
      (entries.find? (fun e => e.1 == n)).bind
        (fun e => if P e then some e else none) := by
  induction entries with
  | nil => rfl
  | cons e rest ih =>
    have hnd' := nodupKeys_tail hnd
    by_cases hk : e.1 = n
    · have hbeq : (e.1 == n) = true := beq_iff_eq.mpr hk
      by_cases hP : P e = true
      · rw [List.filter_cons, if_pos hP,
          List.find?_cons_of_pos (p := fun x : String × FSTree => x.1 == n) _ hbeq,
          List.find?_cons_of_pos (p := fun x : String × FSTree => x.1 == n) _ hbeq]
        simp [hP]
      · have hPf : P e = false := by simp [hP]
        rw [List.filter_cons, if_neg (by simp [hPf]),
          List.find?_cons_of_pos (p := fun x : String × FSTree => x.1 == n) _ hbeq]
        have hnot : n ∉ (rest.filter P).map Prod.fst := by
          intro hcon
          obtain ⟨x, hx, hxn⟩ := List.mem_map.mp hcon
          have hxr : x ∈ rest := (List.mem_filter.mp hx).1
          exact head_not_mem_tail_keys hnd
            (List.mem_map.mpr ⟨x, hxr, by rw [hxn, hk]⟩)
        rw [find?_none_of_not_mem_keys hnot]
        simp [hPf]
    · have hbeq : (e.1 == n) = false := beq_eq_false_iff_ne.mpr hk
      by_cases hP : P e = true
      · rw [List.filter_cons, if_pos hP,
          List.find?_cons_of_neg (p := fun x : String × FSTree => x.1 == n) _ (by simp [hbeq]),
          List.find?_cons_of_neg (p := fun x : String × FSTree => x.1 == n) _ (by simp [hbeq])]
        exact ih hnd'
      · rw [List.filter_cons, if_neg (by simp [hP]),
          List.find?_cons_of_neg (p := fun x : String × FSTree => x.1 == n) _ (by simp [hbeq])]
        exact ih hnd'

/-- The pruning loop of `clean_directory`, run over any list of names
starting from a root listing with distinct entry names, keeps exactly the
entries whose name is not listed or that `keepEntry` protects.  The loop
mutates the tree while iterating over the `os.listdir` snapshot; with
distinct names the net effect is a single filter of the listing. -/
theorem foldl_cleanStep (keep : List String) :
    ∀ (names : List String) (cur : List (String × FSTree)), nodupKeys cur →
      names.foldl (cleanStep keep) (FSTree.dir cur) =
        FSTree.dir (cur.filter (fun e => !(names.contains e.1) || keepEntry keep e)) := by
  intro names
  induction names with
  | nil =>
    intro cur _
    simp only [List.foldl_nil]
    congr 1
    refine (List.filter_eq_self.mpr ?_).symm
    intro e _
    simp [List.contains]
  | cons n ns ih =>
    intro cur hnd
    simp only [List.foldl_cons]
    by_cases hskip : cleanSkip keep n = true
    · have hstep : cleanStep keep (FSTree.dir cur) n = FSTree.dir cur := by
        unfold cleanStep
        rw [if_pos hskip]
      rw [hstep, ih cur hnd]
      congr 1
      apply List.filter_congr
      intro e _
      by_cases hk : e.1 = n
      · have hke : keepEntry keep e = true := by
          unfold keepEntry
          rw [hk, hskip]
          simp
        simp [hke]
      · simp [List.contains_cons, hk]
    · have hskipf : cleanSkip keep n = false := by
        simpa using hskip
      cases hf : (FSTree.dir cur).find n with
      | none =>
        have hstep : cleanStep keep (FSTree.dir cur) n = FSTree.dir cur := by
          unfold cleanStep
          rw [if_neg (by simp [hskipf]), hf]
        have hnone : cur.find? (fun e => e.1 == n) = none := by
          simp only [FSTree.find] at hf
          exact Option.map_eq_none'.mp hf
        rw [hstep, ih cur hnd]
        congr 1
        apply List.filter_congr
        intro e he
        have hne : e.1 ≠ n := by
          intro hk
          have := List.find?_eq_none.mp hnone e he
          exact this (by simp [hk])
        simp [List.contains_cons, hne]
      | some c =>
        have hfind : ∃ e₀, cur.find? (fun e => e.1 == n) = some e₀ ∧ e₀.2 = c := by
          simp only [FSTree.find] at hf
          exact Option.map_eq_some'.mp hf
        obtain ⟨e₀, hf₀, he₀c⟩ := hfind
        obtain ⟨hk₀, hm₀⟩ := find?_key_eq hf₀
        have hmemc : ∀ e ∈ cur, e.1 = n → e = (n, c) := by
          intro e he hk
          have : e = e₀ := eq_of_mem_nodup_keys hnd he hm₀ (by rw [hk, hk₀])
          rw [this, ← he₀c, ← hk₀]
        cases hdir : c.isDir with
        | true =>
          have hstep : cleanStep keep (FSTree.dir cur) n =
              FSTree.dir (cur.filter (fun e => !(e.1 == n))) := by
            unfold cleanStep
            rw [if_neg (by simp [hskipf]), hf]
            show (if c.isDir = true then (FSTree.dir cur).removeChild n
              else FSTree.dir cur) = _
            rw [if_pos hdir]
            rfl
          rw [hstep, ih _ (nodupKeys_filter _ hnd), List.filter_filter]
          congr 1
          apply List.filter_congr
          intro e he
          by_cases hk : e.1 = n
          · have hec : e = (n, c) := hmemc e he hk
            have hkeep : keepEntry keep e = false := by
              unfold keepEntry
              rw [hec]
              simp [hskipf, hdir]
            simp [hkeep, List.contains_cons, hk]
          · simp [List.contains_cons, hk]
        | false =>
          have hstep : cleanStep keep (FSTree.dir cur) n = FSTree.dir cur := by
            unfold cleanStep
            rw [if_neg (by simp [hskipf]), hf]
            show (if c.isDir = true then (FSTree.dir cur).removeChild n
              else FSTree.dir cur) = _
            rw [if_neg (by simp [hdir])]
          rw [hstep, ih cur hnd]
          congr 1
          apply List.filter_congr
          intro e he
          by_cases hk : e.1 = n
          · have hec : e = (n, c) := hmemc e he hk
            have hkeep : keepEntry keep e = true := by
              unfold keepEntry
              rw [hec]
              simp [hdir]
            simp [hkeep]
          · simp [List.contains_cons, hk]

/-- On a root listing with distinct names whose keep path exists, the
prune stage succeeds and its result keeps exactly the protected names and
the non-directories. -/
theorem clean_directory_eq {entries : List (String × FSTree)} {keep : List String}
    (hnd : nodupKeys entries)
    (hex : ((FSTree.dir entries).lookup keep).isSome = true) :
    clean_directory (FSTree.dir entries) keep =
      (true, FSTree.dir (entries.filter (keepEntry keep))) := by
  obtain ⟨u, hu⟩ := Option.isSome_iff_exists.mp hex
  unfold clean_directory
  rw [hu, if_neg (by simp)]
  show (true, (entries.map Prod.fst).foldl (cleanStep keep) (FSTree.dir entries)) = _
  rw [foldl_cleanStep keep (entries.map Prod.fst) entries hnd]
  have : ∀ e ∈ entries,
      (!((entries.map Prod.fst).contains e.1) || keepEntry keep e) = keepEntry keep e := by
    intro e he
    have hc : (entries.map Prod.fst).contains e.1 = true :=
      List.elem_eq_true_of_mem (List.mem_map.mpr ⟨e, he, rfl⟩)
    rw [hc]
    simp
  rw [List.filter_congr this]

/-- Overwriting every entry named `n` in place leaves `List.find?` for `n`
pointing at the overwritten first entry. -/
theorem find?_map_set (entries : List (String × FSTree)) (n : String) (c : FSTree) :
    (entries.map (fun e => if e.1 == n then (n, c) else e)).find?
        (fun e => e.1 == n) =
      (entries.find? (fun e => e.1 == n)).map (fun _ => (n, c)) := by
  induction entries with
  | nil => rfl
  | cons e rest ih =>
    simp only [List.map_cons]
    by_cases hk : e.1 = n
    · rw [if_pos (beq_iff_eq.mpr hk),
        List.find?_cons_of_pos (p := fun x : String × FSTree => x.1 == n) _ (by simp),
        List.find?_cons_of_pos (p := fun x : String × FSTree => x.1 == n) _
          (beq_iff_eq.mpr hk)]
      rfl
    · rw [if_neg (by simp [hk]),
        List.find?_cons_of_neg (p := fun x : String × FSTree => x.1 == n) _ (by simp [hk]),
        List.find?_cons_of_neg (p := fun x : String × FSTree => x.1 == n) _ (by simp [hk])]
      exact ih

/-- Overwriting every entry named `n` in place does not change `List.find?`
for any other name. -/
theorem find?_map_set_ne (entries : List (String × FSTree)) (n m : String) (c : FSTree)
    (hne : m ≠ n) :
    (entries.map (fun e => if e.1 == n then (n, c) else e)).find?
        (fun e => e.1 == m) =
      entries.find? (fun e => e.1 == m) := by
  induction entries with
  | nil => rfl
  | cons e rest ih =>
    simp only [List.map_cons]
    by_cases hk : e.1 = n
    · rw [if_pos (beq_iff_eq.mpr hk),
        List.find?_cons_of_neg (p := fun x : String × FSTree => x.1 == m) _
          (by simp; exact fun h => hne h.symm),
        List.find?_cons_of_neg (p := fun x : String × FSTree => x.1 == m) _
          (by simp [hk]; exact fun h => hne h.symm)]
      exact ih
    · rw [if_neg (by simp [hk])]
      by_cases hm : e.1 = m
      · rw [List.find?_cons_of_pos (p := fun x : String × FSTree => x.1 == m) _
            (beq_iff_eq.mpr hm),
          List.find?_cons_of_pos (p := fun x : String × FSTree => x.1 == m) _
            (beq_iff_eq.mpr hm)]
      · rw [List.find?_cons_of_neg (p := fun x : String × FSTree => x.1 == m) _
            (by simp [hm]),
          List.find?_cons_of_neg (p := fun x : String × FSTree => x.1 == m) _
            (by simp [hm])]
        exact ih

/-- Appending a single entry named `n` does not change `List.find?` for
any other name. -/
theorem find?_append_single_ne (entries : List (String × FSTree)) (n m : String)
    (c : FSTree) (hne : m ≠ n) :
    (entries ++ [(n, c)]).find? (fun e => e.1 == m) =
      entries.find? (fun e => e.1 == m) := by
  rw [List.find?_append]
  have hsingle : ([(n, c)] : List (String × FSTree)).find? (fun e => e.1 == m) = none := by
    rw [List.find?_eq_none]
    intro x hx
    simp at hx
    rw [hx]
    simp
    exact fun h => hne h.symm
  rw [hsingle, Option.or_none]

/-- Writing the child `n` of a directory makes the lookup of `n` return
the written subtree. -/
theorem find_setEntry_self (entries : List (String × FSTree)) (n : String) (c : FSTree) :
    (setEntry (FSTree.dir entries) n c).find n = some c := by
  simp only [setEntry]
  by_cases hany : entries.any (fun e => e.1 == n) = true
  · rw [if_pos hany]
    simp only [FSTree.find]
    rw [find?_map_set]
    obtain ⟨x, hx, hpx⟩ := List.any_eq_true.mp hany
    have : (entries.find? (fun e => e.1 == n)).isSome :=
      List.find?_isSome.mpr ⟨x, hx, hpx⟩
    obtain ⟨e₀, he₀⟩ := Option.isSome_iff_exists.mp this
    rw [he₀]
    rfl
  · rw [if_neg hany]
    simp only [FSTree.find]
    rw [List.find?_append]
    have hnone : entries.find? (fun e => e.1 == n) = none := by
      rw [List.find?_eq_none]
      intro x hx hpx
      exact hany (List.any_eq_true.mpr ⟨x, hx, hpx⟩)
    rw [hnone]
    simp

/-- Writing the child `n` of a directory does not change the lookup of any
other name. -/
theorem find_setEntry_other (entries : List (String × FSTree)) (n m : String)
    (c : FSTree) (hne : m ≠ n) :
    (setEntry (FSTree.dir entries) n c).find m = (FSTree.dir entries).find m := by
  simp only [setEntry]
  by_cases hany : entries.any (fun e => e.1 == n) = true
  · rw [if_pos hany]
    simp only [FSTree.find]
    rw [find?_map_set_ne entries n m c hne]
  · rw [if_neg hany]
    simp only [FSTree.find]
    rw [find?_append_single_ne entries n m c hne]

/-- Overwriting the subtree of every entry named `n` in place leaves
`List.find?` for `n` pointing at the entry with the overwritten subtree. -/
theorem find?_map_setAt (entries : List (String × FSTree)) (n : String)
    (rest : List String) (c : FSTree) :
    (entries.map (fun e => if e.1 == n then (n, FSTree.setAt e.2 rest c) else e)).find?
        (fun e => e.1 == n) =
      (entries.find? (fun e => e.1 == n)).map
        (fun e => (n, FSTree.setAt e.2 rest c)) := by
  induction entries with
  | nil => rfl
  | cons e rest' ih =>
    simp only [List.map_cons]
    by_cases hk : e.1 = n
    · rw [if_pos (beq_iff_eq.mpr hk),
        List.find?_cons_of_pos (p := fun x : String × FSTree => x.1 == n) _ (by simp),
        List.find?_cons_of_pos (p := fun x : String × FSTree => x.1 == n) _
          (beq_iff_eq.mpr hk)]
      rfl
    · rw [if_neg (by simp [hk]),
        List.find?_cons_of_neg (p := fun x : String × FSTree => x.1 == n) _ (by simp [hk]),
        List.find?_cons_of_neg (p := fun x : String × FSTree => x.1 == n) _ (by simp [hk])]
      exact ih

/-- Writing a subtree at an existing path makes the lookup of that path
return the written subtree. -/
theorem lookup_setAt {p : List String} {fs c : FSTree}
    (h : (fs.lookup p).isSome = true) : (fs.setAt p c).lookup p = some c := by
  induction p generalizing fs with
  | nil => cases fs <;> rfl
  | cons n rest ih =>
    cases fs with
    | file d =>
      exfalso
      simp [FSTree.lookup, FSTree.find] at h
    | dir entries =>
      cases hf : (FSTree.dir entries).find n with
      | none =>
        exfalso
        simp only [FSTree.lookup] at h
        rw [hf] at h
        simp at h
      | some c₀ =>
        have hc₀ : (c₀.lookup rest).isSome = true := by
          simp only [FSTree.lookup] at h
          rw [hf] at h
          exact h
        have hfind : ∃ e₀, entries.find? (fun e => e.1 == n) = some e₀ ∧ e₀.2 = c₀ := by
          simp only [FSTree.find] at hf
          exact Option.map_eq_some'.mp hf
        obtain ⟨e₀, hf₀, he₀⟩ := hfind
        show (FSTree.dir (entries.map
          (fun e => if e.1 == n then (n, FSTree.setAt e.2 rest c) else e))).lookup
            (n :: rest) = some c
        simp only [FSTree.lookup, FSTree.find]
        rw [find?_map_setAt, hf₀]
        simp only [Option.map_some']
        rw [he₀]
        exact ih hc₀

/-- The file `version.json` a successful stamp writes holds the fixed
`name`, the supplied version, and exactly the immediate regular files of
the directory whose name ends in one of the allowed suffixes. -/
theorem create_version_file_spec {entries : List (String × FSTree)} {v : String}
    {st : FSTree} (hnd : nodupKeys entries)
    (h : create_version_file (FSTree.dir entries) v = some st) :
    ∃ fs, st.find "version.json" =
        some (.file (.manifest "hello world" v fs)) ∧
      ∀ f, f ∈ fs ↔ ∃ t, (f, t) ∈ entries ∧ t.isFile = true ∧
        (endswith f ".py" = true ∨ endswith f ".js" = true ∨
          endswith f ".sh" = true) := by
  simp only [create_version_file] at h
  split at h
  · exact absurd h (by simp)
  · rw [Option.some.injEq] at h
    subst h
    refine ⟨_, find_setEntry_self _ _ _, ?_⟩
    · intro f
      constructor
      · intro hf
        obtain ⟨hmem, hpred⟩ := List.mem_filter.mp hf
        obtain ⟨e, he, hef⟩ := List.mem_map.mp hmem
        rw [Bool.and_eq_true] at hpred
        obtain ⟨hfile, hext⟩ := hpred
        cases hff : (FSTree.dir entries).find f with
        | none => rw [hff] at hfile; simp at hfile
        | some t =>
          rw [hff] at hfile
          have hft : t.isFile = true := hfile
          refine ⟨t, (find_dir_eq_some_iff hnd).mp hff, hft, ?_⟩
          simpa [allowed_extensions] using hext
      · rintro ⟨t, hmem, hfile, hext⟩
        apply List.mem_filter.mpr
        refine ⟨List.mem_map.mpr ⟨(f, t), hmem, rfl⟩, ?_⟩
        rw [Bool.and_eq_true]
        constructor
        · rw [(find_dir_eq_some_iff hnd).mpr hmem]
          exact hfile
        · simpa [allowed_extensions] using hext

/-- Any node a filtered root still reaches along a nonempty path was
already reachable unchanged in the unfiltered root. -/
theorem lookup_filter_of_cons {entries : List (String × FSTree)}
    {P : String × FSTree → Bool} (hnd : nodupKeys entries)
    {n : String} {rest : List String} {u : FSTree}
    (h : (FSTree.dir (entries.filter P)).lookup (n :: rest) = some u) :
    (FSTree.dir entries).lookup (n :: rest) = some u := by
  simp only [FSTree.lookup, FSTree.find] at h ⊢
  rw [find?_filter_keys hnd] at h
  cases hf : entries.find? (fun e => e.1 == n) with
  | none => rw [hf] at h; simp at h
  | some e₀ =>
    rw [hf] at h
    by_cases hP : P e₀ = true
    · simp only [Option.some_bind, if_pos hP, Option.map_some'] at h
      simpa using h
    · simp [hP] at h

/-- A missing keep path makes the prune stage fail with the tree
unchanged. -/
theorem clean_directory_none {root : FSTree} {keep : List String}
    (h : root.lookup keep = none) : clean_directory root keep = (false, root) := by
  unfold clean_directory
  rw [h]
  rfl

/-- Outcome of `main` when the prune stage fails. -/
theorem main_model_prune_fail {repo t : FSTree} {sp : List String} {v : String}
    {d : Date} (hprune : clean_directory repo sp = (false, t)) :
    main_model (some repo) sp v d =
      { exitCode := 0, tempRemoved := true, versionWritten := false,
        archive := none, log := [.errorAt .prune] } := by
  simp only [main_model, hprune]

/-- Outcome of `main` when pruning succeeds and the stamp stage fails. -/
theorem main_model_stamp_fail {repo pruned : FSTree} {sp : List String} {v : String}
    {d : Date} (hprune : clean_directory repo sp = (true, pruned))
    (hstamp : create_version_file_at pruned sp v = none) :
    main_model (some repo) sp v d =
      { exitCode := 0, tempRemoved := true, versionWritten := false,
        archive := none, log := [.errorAt .stamp] } := by
  simp only [main_model, hprune, hstamp]

/-- Once pruning and stamping succeed, the archive `main` delivers is the
one `create_archive` builds from the stamped tree. -/
theorem main_model_archive {repo pruned stamped : FSTree} {sp : List String}
    {v : String} {d : Date}
    (hprune : clean_directory repo sp = (true, pruned))
    (hstamp : create_version_file_at pruned sp v = some stamped) :
    (main_model (some repo) sp v d).archive = create_archive stamped sp d := by
  simp only [main_model, hprune, hstamp]
  cases create_archive stamped sp d <;> rfl

/-- Unfolding lemma: walking one component is a lookup of the child
followed by the rest of the walk. -/
theorem lookup_cons (t : FSTree) (n : String) (rest : List String) :
    t.lookup (n :: rest) = (t.find n).bind (fun c => c.lookup rest) := by
  simp only [FSTree.lookup]
  cases t.find n <;> rfl

/-- A one-component walk is a direct-child lookup. -/
theorem lookup_single (t : FSTree) (n : String) :
    t.lookup [n] = t.find n := by
  rw [lookup_cons]
  cases t.find n <;> rfl

/-- The basename of `temp_repo/<sp>` is the last component of `sp`. -/
theorem getLastD_temp_append (sp : List String) (h : sp ≠ []) :
    (temp_dir ++ sp).getLastD "" = sp.getLast h := by
  have hc : temp_dir ++ sp = "temp_repo" :: sp := rfl
  rw [hc, List.getLastD_cons, List.getLastD_eq_getLast?, List.getLast?_eq_getLast sp h]
  rfl

/-- Writing a child of a directory yields a directory. -/
theorem setEntry_isDir (entries : List (String × FSTree)) (n : String)
    (c : FSTree) :
    (setEntry (FSTree.dir entries) n c).isDir = true := by
  simp only [setEntry]
  split <;> rfl

/-- Inversion of a successful stamp stage: the source path existed, the
stamp of its subtree succeeded, and the result is the write-back of the
stamped subtree. -/
theorem create_version_file_at_inv {fs : FSTree} {sp : List String} {v : String}
    {stamped : FSTree}
    (h : create_version_file_at fs sp v = some stamped) :
    ∃ src newSrc, fs.lookup sp = some src ∧
      create_version_file src v = some newSrc ∧
      stamped = fs.setAt sp newSrc := by
  unfold create_version_file_at at h
  cases hl : fs.lookup sp with
  | none =>
    rw [hl] at h
    simp at h
  | some src =>
    rw [hl] at h
    have h2 : (match create_version_file src v with
      | some newSrc => some (fs.setAt sp newSrc)
      | none => none) = some stamped := h
    cases hcv : create_version_file src v with
    | none =>
      rw [hcv] at h2
      simp at h2
    | some newSrc =>
      rw [hcv] at h2
      have h3 : some (fs.setAt sp newSrc) = some stamped := h2
      rw [Option.some.injEq] at h3
      exact ⟨src, newSrc, rfl, hcv, h3.symm⟩

/-- Inversion of a successful stamp of one directory: the source was a
directory and the result overwrites `version.json` with the manifest
holding the filtered listing. -/
theorem create_version_file_inv {src : FSTree} {v : String} {newSrc : FSTree}
    (h : create_version_file src v = some newSrc) :
    ∃ entries, src = FSTree.dir entries ∧
      newSrc = setEntry (FSTree.dir entries) "version.json"
        (FSTree.file (FileData.manifest "hello world" v
          ((entries.map Prod.fst).filter (fun f =>
            (match (FSTree.dir entries).find f with
             | some t => t.isFile
             | none => false) &&
            allowed_extensions.any (fun ext => endswith f ext))))) := by
  cases src with
  | file fd => simp [create_version_file] at h
  | dir entries =>
    simp only [create_version_file] at h
    split at h
    · simp at h
    · rw [Option.some.injEq] at h
      exact ⟨entries, rfl, h.symm⟩

/-- Claim C4: for every run in which the clone succeeds but the supplied
keep path does not exist in the cloned repository, no `version.json` is
written, no archive is produced, and the working directory is removed
before the program returns. -/
theorem C4_missing_keep_path (repo : FSTree) (sp : List String) (v : String)
    (d : Date) (h : repo.lookup sp = none) :
    (main_model (some repo) sp v d).versionWritten = false ∧
    (main_model (some repo) sp v d).archive = none ∧
    (main_model (some repo) sp v d).tempRemoved = true := by
  rw [main_model_prune_fail (clean_directory_none h)]
  exact ⟨rfl, rfl, rfl⟩

/-- Witness for C4: a repository without the requested `app` directory. -/
theorem C4_witness :
    (main_model (some (FSTree.dir [("docs", FSTree.dir [])])) ["app"] "1.0" dEx).versionWritten
        = false ∧
    (main_model (some (FSTree.dir [("docs", FSTree.dir [])])) ["app"] "1.0" dEx).archive
        = none ∧
    (main_model (some (FSTree.dir [("docs", FSTree.dir [])])) ["app"] "1.0" dEx).tempRemoved
        = true :=
  C4_missing_keep_path (FSTree.dir [("docs", FSTree.dir [])]) ["app"] "1.0" dEx rfl

/-- Claim C7: in every prune pass, every direct child of the
working-directory root that is not a directory is left untouched: the
prune stage removes only directories. -/
theorem C7_root_files_untouched (entries : List (String × FSTree))
    (keep : List String) (f : String) (t : FSTree) (hnd : nodupKeys entries)
    (hmem : (f, t) ∈ entries) (hfile : t.isDir = false) :
    (f, t) ∈ ((clean_directory (FSTree.dir entries) keep).2).entriesOf := by
  cases hex : ((FSTree.dir entries).lookup keep).isSome with
  | false =>
    have hnone : (FSTree.dir entries).lookup keep = none := by
      cases h : (FSTree.dir entries).lookup keep
      · rfl
      · rw [h] at hex
        simp at hex
    rw [clean_directory_none hnone]
    exact hmem
  | true =>
    rw [clean_directory_eq hnd hex]
    show (f, t) ∈ entries.filter (keepEntry keep)
    apply List.mem_filter.mpr
    refine ⟨hmem, ?_⟩
    unfold keepEntry
    simp [hfile]

/-- Witness for C7: a root-level regular file survives a successful prune
pass. -/
theorem C7_witness :
    ("notes.txt", FSTree.file (FileData.raw "n")) ∈
      ((clean_directory
        (FSTree.dir [("notes.txt", FSTree.file (FileData.raw "n")),
                     ("app", FSTree.dir []), ("docs", FSTree.dir [])])
        ["app"]).2).entriesOf :=
  C7_root_files_untouched
    [("notes.txt", FSTree.file (FileData.raw "n")),
     ("app", FSTree.dir []), ("docs", FSTree.dir [])]
    ["app"] "notes.txt" (FSTree.file (FileData.raw "n"))
    (by decide) (List.mem_cons_self _ _) rfl

/-- Claim C8: every failing run logs an error and returns early without
the program itself setting a non-zero exit status; a successful run
terminates normally after logging a final confirmation line naming the
produced archive. -/
theorem C8_exit_behavior (clone : Option FSTree) (sp : List String)
    (v : String) (d : Date) :
    (main_model clone sp v d).exitCode = 0 ∧
    ((main_model clone sp v d).archive = none →
      ∃ s, (main_model clone sp v d).log = [LogEvent.errorAt s]) ∧
    (∀ ar, (main_model clone sp v d).archive = some ar →
      (main_model clone sp v d).log = [LogEvent.done ar.name]) := by
  cases clone with
  | none =>
    exact ⟨rfl, fun _ => ⟨Stage.fetch, rfl⟩, fun ar h => by simp [main_model] at h⟩
  | some repo =>
    rcases hc : clean_directory repo sp with ⟨b, pruned⟩
    cases b with
    | false =>
      rw [main_model_prune_fail hc]
      exact ⟨rfl, fun _ => ⟨Stage.prune, rfl⟩, fun ar h => by simp at h⟩
    | true =>
      cases hs : create_version_file_at pruned sp v with
      | none =>
        rw [main_model_stamp_fail hc hs]
        exact ⟨rfl, fun _ => ⟨Stage.stamp, rfl⟩, fun ar h => by simp at h⟩
      | some stamped =>
        cases ha : create_archive stamped sp d with
        | none =>
          have hm : main_model (some repo) sp v d =
              { exitCode := 0, tempRemoved := true, versionWritten := true,
                archive := none, log := [.errorAt .package] } := by
            simp only [main_model, hc, hs, ha]
          rw [hm]
          exact ⟨rfl, fun _ => ⟨Stage.package, rfl⟩, fun ar h => by simp at h⟩
        | some ar₀ =>
          have hm : main_model (some repo) sp v d =
              { exitCode := 0, tempRemoved := true, versionWritten := true,
                archive := some ar₀, log := [.done ar₀.name] } := by
            simp only [main_model, hc, hs, ha]
          rw [hm]
          refine ⟨rfl, fun h => by simp at h, fun ar h => ?_⟩
          have har : ar₀ = ar := by simpa using h
          rw [← har]

/-- Witness for C8: a failed clone logs an error with exit status zero,
and the example's successful run logs the confirmation line naming the
archive. -/
theorem C8_witness :
    (main_model none ["app"] "1.0" dEx).exitCode = 0 ∧
    (∃ s, (main_model none ["app"] "1.0" dEx).log = [LogEvent.errorAt s]) ∧
    (main_model (some repoEx) ["app"] "1.0.0" dEx).log
      = [LogEvent.done "app20240307.zip"] := by
  obtain ⟨h1, h2, _⟩ := C8_exit_behavior none ["app"] "1.0" dEx
  exact ⟨h1, h2 rfl, (C8_exit_behavior (some repoEx) ["app"] "1.0.0" dEx).2.2 arEx rfl⟩

/-- Counterexample to claim C2 as stated: with the three-component keep
path `a/b/c` the prune pass succeeds, yet the root-level ancestor `a` on
the path to the keep path is deleted, because line 48 only protects
`os.path.dirname` of the keep path, which for a depth-three keep path is
not a root-level entry. -/
theorem C2_counterexample :
    (clean_directory deepRoot ["a", "b", "c"]).1 = true ∧
    ((clean_directory deepRoot ["a", "b", "c"]).2).find "a" = none :=
  ⟨rfl, rfl⟩

/-- Claim C2 (amended): on a root listing with distinct names and an
existing keep path, the prune pass succeeds and skips exactly the direct
children that are the version-control metadata directory `.git`, the keep
path itself (a one-component keep path), or the immediate parent of the
keep path (a two-component keep path), deleting every other direct child
that is a directory; in particular for a two-component keep path the
root-level ancestor directory survives the pass. -/
theorem C2_prune_skips (entries : List (String × FSTree)) (keep : List String)
    (hnd : nodupKeys entries)
    (hex : ((FSTree.dir entries).lookup keep).isSome = true) :
    clean_directory (FSTree.dir entries) keep =
      (true, FSTree.dir (entries.filter (fun e =>
        e.1 == ".git" || keep == [e.1] || keep.dropLast == [e.1] || !e.2.isDir))) ∧
    (∀ a b t, keep = [a, b] → (a, t) ∈ entries →
      ((clean_directory (FSTree.dir entries) keep).2).find a = some t) := by
  have hmain := clean_directory_eq hnd hex
  constructor
  · rw [hmain]
    rfl
  · intro a b t hk hmem
    rw [hmain]
    show (FSTree.dir (entries.filter (keepEntry keep))).find a = some t
    apply (find_dir_eq_some_iff (nodupKeys_filter _ hnd)).mpr
    apply List.mem_filter.mpr
    refine ⟨hmem, ?_⟩
    unfold keepEntry cleanSkip
    subst hk
    simp

/-- Witness for the amended C2: a two-component keep path `src/app`; the
prune pass keeps `.git`, the parent `src`, and the root-level file, and
the root-level ancestor `src` is still present afterwards. -/
theorem C2_witness :
    clean_directory
        (FSTree.dir [(".git", FSTree.dir []),
                     ("src", FSTree.dir [("app", FSTree.dir []), ("lib", FSTree.dir [])]),
                     ("docs", FSTree.dir []),
                     ("README", FSTree.file (FileData.raw "r"))])
        ["src", "app"] =
      (true, FSTree.dir
        ([(".git", FSTree.dir []),
          ("src", FSTree.dir [("app", FSTree.dir []), ("lib", FSTree.dir [])]),
          ("docs", FSTree.dir []),
          ("README", FSTree.file (FileData.raw "r"))].filter (fun e =>
            e.1 == ".git" || ["src", "app"] == [e.1] ||
              ["src", "app"].dropLast == [e.1] || !e.2.isDir))) ∧
    ((clean_directory
        (FSTree.dir [(".git", FSTree.dir []),
                     ("src", FSTree.dir [("app", FSTree.dir []), ("lib", FSTree.dir [])]),
                     ("docs", FSTree.dir []),
                     ("README", FSTree.file (FileData.raw "r"))])
        ["src", "app"]).2).find "src" =
      some (FSTree.dir [("app", FSTree.dir []), ("lib", FSTree.dir [])]) := by
  obtain ⟨h1, h2⟩ := C2_prune_skips
    [(".git", FSTree.dir []),
     ("src", FSTree.dir [("app", FSTree.dir []), ("lib", FSTree.dir [])]),
     ("docs", FSTree.dir []),
     ("README", FSTree.file (FileData.raw "r"))]
    ["src", "app"] (by decide) rfl
  exact ⟨h1, h2 "src" "app" (FSTree.dir [("app", FSTree.dir []), ("lib", FSTree.dir [])])
    rfl (by simp)⟩

/-- Counterexample to claim C6 as stated: with the three-component keep
path `a/b/c` the first prune pass succeeds but deletes the root-level
ancestor `a`, so the second pass fails its existence check instead of
succeeding. -/
theorem C6_counterexample :
    (clean_directory deepRoot ["a", "b", "c"]).1 = true ∧
    (clean_directory ((clean_directory deepRoot ["a", "b", "c"]).2)
      ["a", "b", "c"]).1 = false :=
  ⟨rfl, rfl⟩

/-- Claim C6 (amended): pruning is idempotent for keep paths of at most
two components: on a root listing with distinct names whose keep path
exists, one prune pass succeeds, and a second pass with the same keep
path succeeds and leaves the root listing unchanged.  (For deeper keep
paths the first pass deletes the root-level ancestor of the keep path and
the second pass fails its existence check.) -/
theorem C6_prune_idempotent (entries : List (String × FSTree)) (keep : List String)
    (hnd : nodupKeys entries) (hlen : keep.length ≤ 2)
    (hex : ((FSTree.dir entries).lookup keep).isSome = true) :
    (clean_directory (FSTree.dir entries) keep).1 = true ∧
    clean_directory ((clean_directory (FSTree.dir entries) keep).2) keep =
      (true, (clean_directory (FSTree.dir entries) keep).2) := by
  have hmain := clean_directory_eq hnd hex
  have hndF := nodupKeys_filter (keepEntry keep) hnd
  have hex2 : ((FSTree.dir (entries.filter (keepEntry keep))).lookup keep).isSome
      = true := by
    match keep, hlen with
    | [], _ => rfl
    | [a], _ =>
      rw [lookup_single] at hex ⊢
      obtain ⟨c, hf⟩ := Option.isSome_iff_exists.mp hex
      have hmem : (a, c) ∈ entries := (find_dir_eq_some_iff hnd).mp hf
      have hkeep : keepEntry [a] (a, c) = true := by
        unfold keepEntry cleanSkip
        simp
      rw [(find_dir_eq_some_iff hndF).mpr (List.mem_filter.mpr ⟨hmem, hkeep⟩)]
      rfl
    | [a, b], _ =>
      rw [lookup_cons] at hex ⊢
      cases hf : (FSTree.dir entries).find a with
      | none =>
        rw [hf] at hex
        simp at hex
      | some c =>
        rw [hf] at hex
        simp only [Option.some_bind] at hex
        have hmem : (a, c) ∈ entries := (find_dir_eq_some_iff hnd).mp hf
        have hkeep : keepEntry [a, b] (a, c) = true := by
          unfold keepEntry cleanSkip
          simp
        rw [(find_dir_eq_some_iff hndF).mpr (List.mem_filter.mpr ⟨hmem, hkeep⟩)]
        simpa using hex
  have h2 := clean_directory_eq hndF hex2
  refine ⟨by rw [hmain], ?_⟩
  rw [hmain]
  show clean_directory (FSTree.dir (entries.filter (keepEntry keep))) keep =
    (true, FSTree.dir (entries.filter (keepEntry keep)))
  rw [h2]
  congr 2
  rw [List.filter_filter]
  apply List.filter_congr
  intro e _
  exact Bool.and_self _

/-- Witness for the amended C6: a second prune pass on the pruned example
root is a fixed point. -/
theorem C6_witness :
    (clean_directory
      (FSTree.dir [("src", FSTree.dir [("app", FSTree.dir [])]), ("docs", FSTree.dir [])])
      ["src", "app"]).1 = true ∧
    clean_directory
        ((clean_directory
          (FSTree.dir [("src", FSTree.dir [("app", FSTree.dir [])]), ("docs", FSTree.dir [])])
          ["src", "app"]).2) ["src", "app"] =
      (true, (clean_directory
        (FSTree.dir [("src", FSTree.dir [("app", FSTree.dir [])]), ("docs", FSTree.dir [])])
        ["src", "app"]).2) :=
  C6_prune_idempotent
    [("src", FSTree.dir [("app", FSTree.dir [])]), ("docs", FSTree.dir [])]
    ["src", "app"] (by decide) (by decide) rfl

/-- Claim C3: for every stamped directory, the manifest's `files` list
contains exactly the immediate regular files of that directory whose
names end in `.py`, `.js`, or `.sh`: every such file is listed, no file
with a different suffix is listed, and no entry from any nested
subdirectory is listed (membership ranges over the immediate entries
only). -/
theorem C3_manifest_files (entries : List (String × FSTree)) (v : String)
    (st : FSTree) (hnd : nodupKeys entries)
    (h : create_version_file (FSTree.dir entries) v = some st) :
    ∃ fs, st.find "version.json" =
        some (FSTree.file (FileData.manifest "hello world" v fs)) ∧
      ∀ f, f ∈ fs ↔ ∃ t, (f, t) ∈ entries ∧ t.isFile = true ∧
        (endswith f ".py" = true ∨ endswith f ".js" = true ∨
          endswith f ".sh" = true) :=
  create_version_file_spec hnd h

/-- Witness for C3 on the example listing: `a.py`, `run.sh` and the
hidden file `.py` qualify; `b.txt` and the nested `sub/c.py` do not. -/
theorem C3_witness :
    ∃ fs, stEx3.find "version.json" =
        some (FSTree.file (FileData.manifest "hello world" "2.0" fs)) ∧
      ∀ f, f ∈ fs ↔ ∃ t, (f, t) ∈ srcEntriesEx ∧ t.isFile = true ∧
        (endswith f ".py" = true ∨ endswith f ".js" = true ∨
          endswith f ".sh" = true) :=
  C3_manifest_files srcEntriesEx "2.0" stEx3 (by decide) rfl

/-- Claim C10: an immediate regular file whose entire name equals one of
the allowed suffixes, such as a hidden file named exactly `.py`, is
included in the manifest's `files` list, because the filter matches the
suffix against the whole filename rather than splitting off an
extension. -/
theorem C10_exact_suffix_filename (entries : List (String × FSTree)) (v : String)
    (st : FSTree) (dat : FileData) (hnd : nodupKeys entries)
    (hmem : (".py", FSTree.file dat) ∈ entries)
    (h : create_version_file (FSTree.dir entries) v = some st) :
    ∃ fs, st.find "version.json" =
        some (FSTree.file (FileData.manifest "hello world" v fs)) ∧ ".py" ∈ fs := by
  obtain ⟨fs, hfind, hiff⟩ := create_version_file_spec hnd h
  exact ⟨fs, hfind, (hiff ".py").mpr ⟨FSTree.file dat, hmem, rfl, Or.inl rfl⟩⟩

/-- Witness for C10: the hidden file named exactly `.py` of the example
listing lands in the manifest. -/
theorem C10_witness :
    ∃ fs, stEx3.find "version.json" =
        some (FSTree.file (FileData.manifest "hello world" "2.0" fs)) ∧ ".py" ∈ fs :=
  C10_exact_suffix_filename srcEntriesEx "2.0" stEx3 (FileData.raw "hidden")
    (by decide)
    (List.mem_cons_of_mem _ (List.mem_cons_of_mem _ (List.mem_cons_of_mem _
      (List.mem_cons_of_mem _ (List.mem_cons_self _ _)))))
    rfl

/-- Claim C9: for every keep path that names an existing regular file in
the cloned repository, the prune stage succeeds, because its precondition
checks only existence and not directoriness; the pipeline then fails at
the stamp stage, no `version.json` is written, no archive is produced,
and the working directory is removed. -/
theorem C9_keep_path_regular_file (entries : List (String × FSTree))
    (sp : List String) (v : String) (d : Date) (t : FSTree)
    (hnd : nodupKeys entries) (hsp : sp ≠ [])
    (hlookup : (FSTree.dir entries).lookup sp = some t)
    (hfile : t.isDir = false) :
    (clean_directory (FSTree.dir entries) sp).1 = true ∧
    (main_model (some (FSTree.dir entries)) sp v d).versionWritten = false ∧
    (main_model (some (FSTree.dir entries)) sp v d).archive = none ∧
    (main_model (some (FSTree.dir entries)) sp v d).tempRemoved = true := by
  have hex : ((FSTree.dir entries).lookup sp).isSome = true := by
    rw [hlookup]
    rfl
  have hprune := clean_directory_eq hnd hex
  obtain ⟨n, rest, hnr⟩ : ∃ n rest, sp = n :: rest := by
    cases sp with
    | nil => exact absurd rfl hsp
    | cons n rest => exact ⟨n, rest, rfl⟩
  have hstamp :
      create_version_file_at (FSTree.dir (entries.filter (keepEntry sp))) sp v
        = none := by
    cases hp : (FSTree.dir (entries.filter (keepEntry sp))).lookup sp with
    | none => simp [create_version_file_at, hp]
    | some u =>
      have horig : (FSTree.dir entries).lookup sp = some u := by
        rw [hnr] at hp ⊢
        exact lookup_filter_of_cons hnd hp
      rw [hlookup] at horig
      injection horig with hut
      cases u with
      | file fd => simp [create_version_file_at, hp, create_version_file]
      | dir es =>
        exfalso
        rw [hut] at hfile
        simp [FSTree.isDir] at hfile
  rw [main_model_stamp_fail hprune hstamp]
  exact ⟨by rw [hprune], rfl, rfl, rfl⟩

/-- Witness for C9: the keep path names the regular file `main.py`; the
prune pass succeeds, the stamp stage fails, and the run ends with the
working directory removed and no archive. -/
theorem C9_witness :
    (clean_directory
      (FSTree.dir [("main.py", FSTree.file (FileData.raw "m")), ("docs", FSTree.dir [])])
      ["main.py"]).1 = true ∧
    (main_model
      (some (FSTree.dir [("main.py", FSTree.file (FileData.raw "m")), ("docs", FSTree.dir [])]))
      ["main.py"] "1.0" dEx).versionWritten = false ∧
    (main_model
      (some (FSTree.dir [("main.py", FSTree.file (FileData.raw "m")), ("docs", FSTree.dir [])]))
      ["main.py"] "1.0" dEx).archive = none ∧
    (main_model
      (some (FSTree.dir [("main.py", FSTree.file (FileData.raw "m")), ("docs", FSTree.dir [])]))
      ["main.py"] "1.0" dEx).tempRemoved = true :=
  C9_keep_path_regular_file
    [("main.py", FSTree.file (FileData.raw "m")), ("docs", FSTree.dir [])]
    ["main.py"] "1.0" dEx (FSTree.file (FileData.raw "m"))
    (by decide) (by simp) rfl rfl

/-- Claim C5: for every run that delivers an archive, the archive's
filename is the final component of the designated subdirectory path
(trailing separators being absent from normalized component paths)
concatenated with the local date as decimal year, zero-padded month and
zero-padded day, followed by the `.zip` suffix. -/
theorem C5_archive_name (repo : FSTree) (sp : List String) (v : String)
    (d : Date) (ar : Archive) (hsp : sp ≠ [])
    (hmain : (main_model (some repo) sp v d).archive = some ar) :
    ar.name = sp.getLast hsp ++
      (toString d.year ++ pad2 d.month ++ pad2 d.day) ++ ".zip" := by
  rcases hc : clean_directory repo sp with ⟨b, pruned⟩
  cases b with
  | false =>
    rw [main_model_prune_fail hc] at hmain
    simp at hmain
  | true =>
    cases hs : create_version_file_at pruned sp v with
    | none =>
      rw [main_model_stamp_fail hc hs] at hmain
      simp at hmain
    | some stamped =>
      rw [main_model_archive hc hs] at hmain
      simp only [create_archive] at hmain
      cases hl : stamped.lookup sp with
      | none =>
        rw [hl] at hmain
        simp at hmain
      | some u =>
        rw [hl] at hmain
        cases u with
        | file fd => simp at hmain
        | dir es =>
          have hmain' : some (Archive.mk
              ((temp_dir ++ sp).getLastD "" ++ formatYYYYMMDD d ++ ".zip")
              (FSTree.dir es)) = some ar := hmain
          rw [Option.some.injEq] at hmain'
          rw [← hmain']
          show (temp_dir ++ sp).getLastD "" ++ formatYYYYMMDD d ++ ".zip" = _
          rw [getLastD_temp_append sp hsp]
          rfl

/-- Witness for C5: the example run on `repo/app` dated 2024-03-07 names
its archive `app20240307.zip`. -/
theorem C5_witness :
    arEx.name = ["app"].getLast (by simp) ++
      (toString dEx.year ++ pad2 dEx.month ++ pad2 dEx.day) ++ ".zip" :=
  C5_archive_name repoEx ["app"] "1.0.0" dEx arEx (by simp) rfl

/-- Claim C1: for every run in which the clone succeeds, the prune pass
succeeds (the keep path exists), and the stamp and package stages
succeed, the delivered archive contains exactly the contents of the
designated subdirectory after pruning, plus a `version.json` whose
`version` field equals the version string supplied on the command
line (an existing `version.json` of the subdirectory is overwritten by
the stamp). -/
theorem C1_archive_contents (repo pruned stamped : FSTree) (sp : List String)
    (v : String) (d : Date) (ar : Archive)
    (hprune : clean_directory repo sp = (true, pruned))
    (hstamp : create_version_file_at pruned sp v = some stamped)
    (hmain : (main_model (some repo) sp v d).archive = some ar) :
    ∃ entries fs,
      pruned.lookup sp = some (FSTree.dir entries) ∧
      (∀ name, name ≠ "version.json" →
        ar.contents.find name = (FSTree.dir entries).find name) ∧
      ar.contents.find "version.json" =
        some (FSTree.file (FileData.manifest "hello world" v fs)) := by
  obtain ⟨src, newSrc, hl, hcv, hst⟩ := create_version_file_at_inv hstamp
  obtain ⟨entries, hsrc, hnew⟩ := create_version_file_inv hcv
  subst hsrc
  have hlook : stamped.lookup sp = some newSrc := by
    rw [hst]
    exact lookup_setAt (by rw [hl]; rfl)
  rw [main_model_archive hprune hstamp] at hmain
  simp only [create_archive] at hmain
  rw [hlook] at hmain
  have hdir : newSrc.isDir = true := by
    rw [hnew]
    exact setEntry_isDir _ _ _
  cases newSrc with
  | file fd => simp [FSTree.isDir] at hdir
  | dir l =>
    have hmain' : some (Archive.mk
        ((temp_dir ++ sp).getLastD "" ++ formatYYYYMMDD d ++ ".zip")
        (FSTree.dir l)) = some ar := hmain
    rw [Option.some.injEq] at hmain'
    have hcont : ar.contents = FSTree.dir l := by
      rw [← hmain']
    refine ⟨entries,
      (entries.map Prod.fst).filter (fun f =>
        (match (FSTree.dir entries).find f with
         | some t => t.isFile
         | none => false) &&
        allowed_extensions.any (fun ext => endswith f ext)), hl, ?_, ?_⟩
    · intro name hname
      rw [hcont, hnew]
      exact find_setEntry_other entries "version.json" name _ hname
    · rw [hcont, hnew]
      exact find_setEntry_self entries "version.json" _

/-- Witness for C1 on the example run: the archive contents agree with the
pruned `app` directory away from `version.json`, and `version.json`
carries the supplied version string. -/
theorem C1_witness :
    ∃ entries fs,
      prunedEx.lookup ["app"] = some (FSTree.dir entries) ∧
      (∀ name, name ≠ "version.json" →
        arEx.contents.find name = (FSTree.dir entries).find name) ∧
      arEx.contents.find "version.json" =
        some (FSTree.file (FileData.manifest "hello world" "1.0.0" fs)) :=
  C1_archive_contents repoEx prunedEx stampedEx ["app"] "1.0.0" dEx arEx rfl rfl rfl

end Task2
